import Mathlib

/-!
Verification development for the fs_tidyfy / fsi file-deduplication index.

The Python sources are shallowly embedded:
* Python strings are modelled as `List Char` (`Str`), so that string
  operations (`split`, `join`, slicing, concatenation) become plain list
  functions with Python semantics.
* Python dicts are modelled as association lists in insertion order;
  assignment to a fresh key appends, assignment to an existing key
  overwrites in place (matching CPython's ordered dicts).
* Fallible operations return `Option` / an explicit error sum; stateful
  methods become state-passing functions.
-/

set_option autoImplicit false

namespace FsTidyfy

/-- Python strings, modelled as lists of characters. -/
abbrev Str := List Char

/-- Python `s.split(c)` for a single-character separator: always returns a
non-empty list of (possibly empty) parts. `''.split(c) == ['']`. -/
def pySplit (c : Char) : Str → List Str
  | [] => [[]]
  | x :: xs =>
    if x = c then [] :: pySplit c xs
    else
      match pySplit c xs with
      | [] => [[x]]
      | p :: ps => (x :: p) :: ps

/-- Python `c.join(parts)` for a single-character separator. -/
def pyJoin (c : Char) : List Str → Str
  | [] => []
  | [p] => p
  | p :: q :: ps => p ++ c :: pyJoin c (q :: ps)

theorem pySplit_ne_nil (c : Char) (s : Str) : pySplit c s ≠ [] := by
  induction s with
  | nil => simp [pySplit]
  | cons x xs ih =>
    simp only [pySplit]
    split
    · simp
    · cases h : pySplit c xs with
      | nil => simp
      | cons p ps => simp

/-- Python guarantees `c.join(s.split(c)) == s`; so does the model. -/
theorem pyJoin_pySplit (c : Char) (s : Str) : pyJoin c (pySplit c s) = s := by
  induction s with
  | nil => simp [pySplit, pyJoin]
  | cons x xs ih =>
    simp only [pySplit]
    split
    · rename_i hx
      cases h : pySplit c xs with
      | nil => exact absurd h (pySplit_ne_nil c xs)
      | cons p ps =>
        rw [h] at ih
        subst hx
        simp only [pyJoin]
        cases ps with
        | nil => simp only [pyJoin] at ih ⊢; simp [ih]
        | cons q qs => simp only [pyJoin] at ih ⊢; simp [ih]
    · cases h : pySplit c xs with
      | nil => exact absurd h (pySplit_ne_nil c xs)
      | cons p ps =>
        rw [h] at ih
        cases ps with
        | nil => simp only [pyJoin] at ih ⊢; simp [ih]
        | cons q qs =>
          simp only [pyJoin] at ih ⊢
          simp [ih]

/-- Splitting a separator-free string yields the single part. -/
theorem pySplit_no_sep {c : Char} {a : Str} (h : c ∉ a) : pySplit c a = [a] := by
  induction a with
  | nil => simp [pySplit]
  | cons x xs ih =>
    simp only [List.mem_cons, not_or] at h
    simp only [pySplit, if_neg (fun hx : x = c => h.1 hx.symm), ih h.2]

/-- Splitting at the first separator after a separator-free prefix. -/
theorem pySplit_append_cons {c : Char} {a : Str} (t : Str) (h : c ∉ a) :
    pySplit c (a ++ c :: t) = a :: pySplit c t := by
  induction a with
  | nil => simp [pySplit]
  | cons x xs ih =>
    simp only [List.mem_cons, not_or] at h
    simp only [List.cons_append, pySplit, if_neg (fun hx : x = c => h.1 hx.symm),
      List.append_eq, ih h.2]

/-- Python `split` is a left inverse of `join` for separator-free, non-empty part
lists, as in Python. -/
theorem pySplit_pyJoin {c : Char} {parts : List Str}
    (hne : parts ≠ []) (hfree : ∀ p ∈ parts, c ∉ p) :
    pySplit c (pyJoin c parts) = parts := by
  induction parts with
  | nil => exact absurd rfl hne
  | cons p ps ih =>
    cases ps with
    | nil =>
      simp only [pyJoin]
      exact pySplit_no_sep (hfree p (by simp))
    | cons q qs =>
      simp only [pyJoin]
      rw [pySplit_append_cons _ (hfree p (by simp))]
      have := ih (by simp) (fun r hr => hfree r (by simp [hr]))
      simp only [pyJoin] at this
      rw [this]

/-- Characters of a joined string come from the separator or some part. -/
theorem mem_pyJoin {c : Char} {parts : List Str} {ch : Char}
    (h : ch ∈ pyJoin c parts) : ch = c ∨ ∃ p ∈ parts, ch ∈ p := by
  induction parts with
  | nil => simp [pyJoin] at h
  | cons p ps ih =>
    cases ps with
    | nil =>
      simp only [pyJoin] at h
      exact Or.inr ⟨p, by simp, h⟩
    | cons q qs =>
      simp only [pyJoin, List.mem_append, List.mem_cons] at h
      rcases h with h | h | h
      · exact Or.inr ⟨p, by simp, h⟩
      · exact Or.inl h
      · rcases ih h with h' | ⟨r, hr, hcr⟩
        · exact Or.inl h'
        · exact Or.inr ⟨r, by simp [List.mem_cons.mp hr], hcr⟩

/-! ### Decimal conversion: Python `str(n)` and `int(s)` for naturals -/

/-- The digit value of a decimal digit character, `none` otherwise. -/
def charDigit (ch : Char) : Option Nat :=
  if '0' ≤ ch ∧ ch ≤ '9' then some (ch.toNat - 48) else none

/-- Accumulator loop of `int(s)` over decimal digit characters. -/
def parseNatAux : Nat → Str → Option Nat
  | acc, [] => some acc
  | acc, ch :: t =>
    match charDigit ch with
    | some d => parseNatAux (acc * 10 + d) t
    | none => none

/-- Python `int(s)` restricted to non-empty all-digit strings (the only
inputs the indexer feeds it); anything else fails (`ValueError`). -/
def parseNat (s : Str) : Option Nat :=
  if s.isEmpty then none else parseNatAux 0 s

/-- Fuelled most-significant-first decimal digits of `n`; `fuel > n`
always suffices. Structural on the fuel so that it reduces in the kernel. -/
def natToDigitsAux : Nat → Nat → Str
  | 0, _ => []
  | fuel + 1, n =>
    if n < 10 then [Nat.digitChar n]
    else natToDigitsAux fuel (n / 10) ++ [Nat.digitChar (n % 10)]

/-- Python `str(n)` for a natural number. -/
def natRepr (n : Nat) : Str := natToDigitsAux (n + 1) n

theorem charDigit_digitChar {d : Nat} (h : d < 10) :
    charDigit (Nat.digitChar d) = some d := by
  interval_cases d <;> decide

theorem parseNatAux_append (acc : Nat) (xs ys : Str) :
    parseNatAux acc (xs ++ ys) =
      match parseNatAux acc xs with
      | some a => parseNatAux a ys
      | none => none := by
  induction xs generalizing acc with
  | nil => simp [parseNatAux]
  | cons ch t ih =>
    simp only [List.cons_append, parseNatAux]
    cases charDigit ch with
    | none => simp
    | some d => simp [ih]

theorem natToDigitsAux_parse {n : Nat} :
    ∀ {fuel : Nat}, n < fuel → ∀ acc,
      parseNatAux acc (natToDigitsAux fuel n) =
        some (acc * 10 ^ (natToDigitsAux fuel n).length + n) := by
  induction n using Nat.strong_induction_on with
  | _ n ih =>
    intro fuel hfuel acc
    match fuel, hfuel with
    | fuel + 1, hfuel =>
      by_cases h10 : n < 10
      · simp only [natToDigitsAux, if_pos h10, parseNatAux, charDigit_digitChar h10]
        simp
      · have hdiv : n / 10 < n := Nat.div_lt_self (by omega) (by omega)
        have hdivfuel : n / 10 < fuel := by omega
        simp only [natToDigitsAux, if_neg h10]
        rw [parseNatAux_append, ih (n / 10) hdiv hdivfuel acc]
        simp only [parseNatAux, charDigit_digitChar (Nat.mod_lt n (by omega)),
          List.length_append, List.length_cons, List.length_nil]
        have : (acc * 10 ^ (natToDigitsAux fuel (n / 10)).length + n / 10) * 10 + n % 10 =
            acc * 10 ^ ((natToDigitsAux fuel (n / 10)).length + 1) + n := by
          rw [pow_succ]
          have := Nat.div_add_mod n 10
          ring_nf
          omega
        simp [this, parseNatAux]

theorem natToDigitsAux_ne_nil {fuel n : Nat} (h : n < fuel) :
    natToDigitsAux fuel n ≠ [] := by
  match fuel with
  | fuel + 1 =>
    simp only [natToDigitsAux]
    split <;> simp

/-- Every character produced by the decimal printer is a decimal digit. -/
theorem mem_natToDigitsAux {fuel n : Nat} {ch : Char}
    (h : ch ∈ natToDigitsAux fuel n) : ∃ d, d < 10 ∧ ch = Nat.digitChar d := by
  induction fuel generalizing n with
  | zero => simp [natToDigitsAux] at h
  | succ fuel ih =>
    simp only [natToDigitsAux] at h
    split at h
    · rename_i h10
      simp only [List.mem_singleton] at h
      exact ⟨n, h10, h⟩
    · simp only [List.mem_append, List.mem_singleton] at h
      rcases h with h | h
      · exact ih h
      · exact ⟨n % 10, Nat.mod_lt n (by omega), h⟩

/-- Round trip: `int(str(n)) == n`. -/
theorem parseNat_natRepr (n : Nat) : parseNat (natRepr n) = some n := by
  have hne := @natToDigitsAux_ne_nil (n + 1) n (by omega)
  have := @natToDigitsAux_parse n (n + 1) (by omega) 0
  simp only [natRepr, parseNat, List.isEmpty_iff, if_neg hne, this, Nat.zero_mul, Nat.zero_add]

theorem natRepr_ne_nil (n : Nat) : natRepr n ≠ [] :=
  natToDigitsAux_ne_nil (by omega)

theorem mem_natRepr_digit {n : Nat} {ch : Char} (h : ch ∈ natRepr n) :
    ∃ d, d < 10 ∧ ch = Nat.digitChar d := mem_natToDigitsAux h

theorem natRepr_not_slash {n : Nat} : '/' ∉ natRepr n := by
  intro h
  rcases mem_natRepr_digit h with ⟨d, hd, he⟩
  interval_cases d <;> exact absurd he (by decide)

theorem natRepr_not_space {n : Nat} : ' ' ∉ natRepr n := by
  intro h
  rcases mem_natRepr_digit h with ⟨d, hd, he⟩
  interval_cases d <;> exact absurd he (by decide)

/-! ### Python dicts as insertion-ordered association lists -/

section Dict

variable {α : Type} {β : Type} [DecidableEq α]

/-- The `d[k]` lookup: first entry with the given key (keys are unique in any
list built through `dictInsert`, so "first" is harmless). -/
def dictFind : List (α × β) → α → Option β
  | [], _ => none
  | (k', v) :: t, k => if k' = k then some v else dictFind t k

/-- The `d[k] = v` assignment: overwrites in place if the key is present,
appends otherwise — CPython's ordered-dict semantics. -/
def dictInsert : List (α × β) → α → β → List (α × β)
  | [], k, v => [(k, v)]
  | (k', v') :: t, k, v =>
    if k' = k then (k, v) :: t else (k', v') :: dictInsert t k v

@[simp] theorem dictFind_nil (k : α) : dictFind ([] : List (α × β)) k = none := rfl

theorem dictFind_append_some {l l' : List (α × β)} {k : α} {v : β}
    (h : dictFind l k = some v) : dictFind (l ++ l') k = some v := by
  induction l with
  | nil => simp [dictFind] at h
  | cons e t ih =>
    obtain ⟨k', v'⟩ := e
    simp only [dictFind, List.cons_append] at h ⊢
    split at h <;> simp_all

theorem dictFind_append_none {l l' : List (α × β)} {k : α}
    (h : dictFind l k = none) : dictFind (l ++ l') k = dictFind l' k := by
  induction l with
  | nil => simp
  | cons e t ih =>
    obtain ⟨k', v'⟩ := e
    simp only [dictFind, List.cons_append] at h ⊢
    split at h <;> simp_all [dictFind]

theorem dictFind_eq_none_of_not_mem {l : List (α × β)} {k : α}
    (h : k ∉ l.map Prod.fst) : dictFind l k = none := by
  induction l with
  | nil => rfl
  | cons e t ih =>
    obtain ⟨k', v'⟩ := e
    simp only [List.map_cons, List.mem_cons, not_or] at h
    simp only [dictFind, if_neg (fun he : k' = k => h.1 he.symm)]
    exact ih h.2

theorem mem_of_dictFind {l : List (α × β)} {k : α} {v : β}
    (h : dictFind l k = some v) : (k, v) ∈ l := by
  induction l with
  | nil => simp [dictFind] at h
  | cons e t ih =>
    obtain ⟨k', v'⟩ := e
    simp only [dictFind] at h
    split at h
    · rename_i he
      simp only [Option.some_inj] at h
      subst he
      subst h
      exact List.mem_cons_self _ _
    · simp [ih h]

theorem mem_keys_of_dictFind {l : List (α × β)} {k : α} {v : β}
    (h : dictFind l k = some v) : k ∈ l.map Prod.fst := by
  have := mem_of_dictFind h
  exact List.mem_map.mpr ⟨(k, v), this, rfl⟩

theorem dictFind_of_mem_nodup {l : List (α × β)} {k : α} {v : β}
    (hn : (l.map Prod.fst).Nodup) (h : (k, v) ∈ l) : dictFind l k = some v := by
  induction l with
  | nil => simp at h
  | cons e t ih =>
    obtain ⟨k', v'⟩ := e
    simp only [List.map_cons, List.nodup_cons] at hn
    simp only [List.mem_cons] at h
    rcases h with h | h
    · cases h
      simp [dictFind]
    · have hne : k' ≠ k := by
        intro he
        exact hn.1 (he ▸ List.mem_map.mpr ⟨(k, v), h, rfl⟩)
      simp only [dictFind, if_neg hne]
      exact ih hn.2 h

theorem dictInsert_of_not_mem {l : List (α × β)} {k : α} (v : β)
    (h : k ∉ l.map Prod.fst) : dictInsert l k v = l ++ [(k, v)] := by
  induction l with
  | nil => rfl
  | cons e t ih =>
    obtain ⟨k', v'⟩ := e
    simp only [List.map_cons, List.mem_cons, not_or] at h
    simp only [dictInsert, if_neg (fun he : k' = k => h.1 he.symm), List.cons_append]
    rw [ih h.2]

theorem dictFind_dictInsert_self (l : List (α × β)) (k : α) (v : β) :
    dictFind (dictInsert l k v) k = some v := by
  induction l with
  | nil => simp [dictInsert, dictFind]
  | cons e t ih =>
    obtain ⟨k', v'⟩ := e
    simp only [dictInsert]
    split
    · simp [dictFind]
    · rename_i hne
      simp only [dictFind, if_neg hne]
      exact ih

theorem dictFind_dictInsert_ne (l : List (α × β)) {k k' : α} (v : β)
    (h : k ≠ k') : dictFind (dictInsert l k v) k' = dictFind l k' := by
  induction l with
  | nil => simp [dictInsert, dictFind, if_neg h]
  | cons e t ih =>
    obtain ⟨ka, va⟩ := e
    simp only [dictInsert]
    split
    · rename_i he
      simp [dictFind, if_neg h, he]
    · simp only [dictFind]
      split
      · rfl
      · exact ih

end Dict

/-! ### `indexer.name_component_store` (fsi.py lines 41-81)

The two dicts and the size counter, in insertion order. Python's `__eq__`
compares all three fields; we use structural equality, which agrees with it
on every store arising in this development (same insertion order). -/

structure NCStore where
  idx_to_word : List (Nat × Str)
  word_to_idx : List (Str × Nat)
  size : Nat
deriving DecidableEq, Repr

/-- A fresh `name_component_store()`. -/
def NCStore.empty : NCStore := ⟨[], [], 0⟩

/-- The `get_index(word)`: the existing id, or a fresh one grown off `_size`.
`assert word != ''` is modelled as `none`.  Both dict assignments are to
fresh keys, hence appends. -/
def NCStore.get_index (s : NCStore) (word : Str) : Option (NCStore × Nat) :=
  if word = [] then none
  else
    match dictFind s.word_to_idx word with
    | some i => some (s, i)
    | none =>
      some ({ idx_to_word := s.idx_to_word ++ [(s.size, word)],
              word_to_idx := s.word_to_idx ++ [(word, s.size)],
              size := s.size + 1 }, s.size)

/-- The `store[index]` (`__getitem__`); `KeyError` is modelled as `none`. -/
def NCStore.getWord (s : NCStore) (i : Nat) : Option Str :=
  dictFind s.idx_to_word i

/-- The `save(filename)`: the JSON payload is exactly `_word_to_idx`. -/
def NCStore.save (s : NCStore) : List (Str × Nat) := s.word_to_idx

/-- What `open(filename)` + `json.load` can produce in `load`. -/
inductive LoadInput where
  /-- the persisted file does not exist: `open` raises -/
  | missing
  /-- the file exists but is not valid JSON: `json.load` raises -/
  | malformed
  /-- successfully parsed word-to-index mapping -/
  | parsed (word2idx : List (Str × Nat))
deriving DecidableEq, Repr

/-- The `_idx2word` dict that `load` rebuilds from the parsed mapping
(`for word, idx in _word2idx.items(): _idx2word[idx] = word`). -/
def loadIdx2word (wl : List (Str × Nat)) : List (Nat × Str) :=
  wl.foldl (fun acc p => dictInsert acc p.2 p.1) []

/-- The `load(filename)` (fsi.py lines 66-76): the bare `except:` catches any
failure of `open`/`json.load` and returns with the store untouched;
on success all three fields are replaced, `_size` being the number of
distinct indices (`len(_idx2word)`). -/
def NCStore.load (s : NCStore) (input : LoadInput) : NCStore :=
  match input with
  | .missing => s
  | .malformed => s
  | .parsed wl =>
    { idx_to_word := loadIdx2word wl, word_to_idx := wl,
      size := (loadIdx2word wl).length }

/-- The load-after-save assertion in `indexer.__exit__` (fsi.py lines
93-102): save, load into a fresh store, compare with `__eq__`. -/
def NCStore.exitCheck (s : NCStore) : Bool :=
  NCStore.empty.load (.parsed s.save) == s

/-- Interning a list of path components left to right, as the generator
inside `_get_name_components` does; on an empty component the assertion in
`get_index` fires, and the components interned so far stay interned. -/
def internComponents (s : NCStore) : List Str → NCStore × Option (List Nat)
  | [] => (s, some [])
  | w :: ws =>
    match s.get_index w with
    | none => (s, none)
    | some (s', i) =>
      match internComponents s' ws with
      | (s'', none) => (s'', none)
      | (s'', some is) => (s'', some (i :: is))

/-- The `_get_name_components(path)` (fsi.py lines 104-109): drop the leading
character, split on `/`, intern each component, join the decimal ids
with `/`. -/
def getNameComponents (s : NCStore) (path : Str) : NCStore × Option Str :=
  match internComponents s (pySplit '/' (path.drop 1)) with
  | (s', none) => (s', none)
  | (s', some is) => (s', some (pyJoin '/' (is.map natRepr)))

/-- Pointwise `Option`-valued map over a list, failing if any element
fails (the effect of a Python generator whose body may raise). -/
def mapOption {α β : Type} (f : α → Option β) : List α → Option (List β)
  | [] => some []
  | a :: t =>
    match f a with
    | none => none
    | some b =>
      match mapOption f t with
      | none => none
      | some bs => some (b :: bs)

/-- The `_restore_name(packed_path)` (fsi.py lines 111-115): split on `/`,
parse each component as an integer, look each id up, re-join and prepend
the root `/`. `int` failures and `KeyError` are modelled as `none`. -/
def NCStore.restoreName (s : NCStore) (packed : Str) : Option Str :=
  match mapOption parseNat (pySplit '/' packed) with
  | none => none
  | some is =>
    match mapOption s.getWord is with
    | none => none
    | some ws => some ('/' :: pyJoin '/' ws)

/-- Invariants of every store reachable by interning from empty (also
preserved by a round trip through `save`/`load`): the id-to-word dict
mirrors the word-to-id dict entrywise, ids are assigned in first-seen
order `0, 1, 2, …`, the size counter is the number of entries, words are
unique and non-empty. -/
def NCStore.WF (s : NCStore) : Prop :=
  s.idx_to_word = s.word_to_idx.map (fun p => (p.2, p.1)) ∧
  s.word_to_idx.map Prod.snd = List.range s.word_to_idx.length ∧
  s.size = s.word_to_idx.length ∧
  (s.word_to_idx.map Prod.fst).Nodup ∧
  ∀ p ∈ s.word_to_idx, p.1 ≠ []

theorem NCStore.WF_empty : NCStore.empty.WF := by
  refine ⟨rfl, rfl, rfl, List.nodup_nil, ?_⟩
  intro p hp
  simp [NCStore.empty] at hp

/-! ### Lemmas about `get_index` and component interning -/

theorem dictFind_isSome_of_mem_keys {α β : Type} [DecidableEq α]
    {l : List (α × β)} {k : α} (h : k ∈ l.map Prod.fst) :
    (dictFind l k).isSome := by
  induction l with
  | nil => simp at h
  | cons e t ih =>
    obtain ⟨k', v'⟩ := e
    simp only [List.map_cons, List.mem_cons] at h
    simp only [dictFind]
    split
    · simp
    · rename_i hne
      rcases h with h | h
      · exact absurd h.symm hne
      · exact ih h

theorem NCStore.get_index_found {s : NCStore} {w : Str} {i : Nat}
    (hw : w ≠ []) (h : dictFind s.word_to_idx w = some i) :
    s.get_index w = some (s, i) := by
  simp [NCStore.get_index, if_neg hw, h]

/-- Interning never removes or shadows an existing word-to-id entry. -/
theorem NCStore.get_index_mono_word {s s' : NCStore} {w : Str} {i : Nat}
    (h : s.get_index w = some (s', i)) {w' : Str} {i' : Nat}
    (hf : dictFind s.word_to_idx w' = some i') :
    dictFind s'.word_to_idx w' = some i' := by
  simp only [NCStore.get_index] at h
  split at h
  · exact absurd h (by simp)
  · split at h
    · simp only [Option.some_inj, Prod.mk.injEq] at h
      obtain ⟨h1, h2⟩ := h
      subst h1
      exact hf
    · simp only [Option.some_inj, Prod.mk.injEq] at h
      obtain ⟨h1, h2⟩ := h
      subst h1
      exact dictFind_append_some hf

/-- Interning never removes or shadows an existing id-to-word entry. -/
theorem NCStore.get_index_mono_idx {s s' : NCStore} {w : Str} {i : Nat}
    (h : s.get_index w = some (s', i)) {j : Nat} {w' : Str}
    (hf : dictFind s.idx_to_word j = some w') :
    dictFind s'.idx_to_word j = some w' := by
  simp only [NCStore.get_index] at h
  split at h
  · exact absurd h (by simp)
  · split at h
    · simp only [Option.some_inj, Prod.mk.injEq] at h
      obtain ⟨h1, h2⟩ := h
      subst h1
      exact hf
    · simp only [Option.some_inj, Prod.mk.injEq] at h
      obtain ⟨h1, h2⟩ := h
      subst h1
      exact dictFind_append_some hf

/-- After `get_index` returns `(s', i)`, the word is registered at `i` in
both directions of `s'`. -/
theorem NCStore.get_index_spec {s s' : NCStore} {w : Str} {i : Nat}
    (hwf : s.WF) (h : s.get_index w = some (s', i)) :
    dictFind s'.word_to_idx w = some i ∧ dictFind s'.idx_to_word i = some w := by
  obtain ⟨hmir, henum, hsize, hnodup, hne⟩ := hwf
  simp only [NCStore.get_index] at h
  split at h
  · exact absurd h (by simp)
  · split at h
    · rename_i hfound
      simp only [Option.some_inj, Prod.mk.injEq] at h
      obtain ⟨h1, h2⟩ := h
      subst h1
      rw [h2] at hfound
      refine ⟨hfound, ?_⟩
      -- the mirrored entry `(i, w)` is found because ids are unique
      have hmem : (w, i) ∈ s.word_to_idx := mem_of_dictFind hfound
      have hmem' : (i, w) ∈ s.idx_to_word := by
        rw [hmir]
        exact List.mem_map.mpr ⟨(w, i), hmem, rfl⟩
      have hidnodup : (s.idx_to_word.map Prod.fst).Nodup := by
        rw [hmir]
        simp only [List.map_map]
        have hcomp : (Prod.fst ∘ fun p : Str × Nat => (p.2, p.1)) = Prod.snd := rfl
        rw [hcomp, henum]
        exact List.nodup_range _
      exact dictFind_of_mem_nodup hidnodup hmem'
    · rename_i hnot
      simp only [Option.some_inj, Prod.mk.injEq] at h
      obtain ⟨h1, h2⟩ := h
      subst h1
      subst h2
      constructor
      · show dictFind (s.word_to_idx ++ [(w, s.size)]) w = some s.size
        rw [dictFind_append_none hnot]
        simp [dictFind]
      · show dictFind (s.idx_to_word ++ [(s.size, w)]) s.size = some w
        have hfresh : dictFind s.idx_to_word s.size = none := by
          apply dictFind_eq_none_of_not_mem
          rw [hmir]
          simp only [List.map_map]
          have hcomp : (Prod.fst ∘ fun p : Str × Nat => (p.2, p.1)) = Prod.snd := rfl
          rw [hcomp, henum, hsize]
          simp
        rw [dictFind_append_none hfresh]
        simp [dictFind]

/-- The `get_index` preserves the store invariants. -/
theorem NCStore.get_index_WF {s s' : NCStore} {w : Str} {i : Nat}
    (hwf : s.WF) (h : s.get_index w = some (s', i)) : s'.WF := by
  obtain ⟨hmir, henum, hsize, hnodup, hne⟩ := hwf
  simp only [NCStore.get_index] at h
  split at h
  · exact absurd h (by simp)
  · rename_i hw
    split at h
    · simp only [Option.some_inj, Prod.mk.injEq] at h
      obtain ⟨h1, h2⟩ := h
      subst h1
      exact ⟨hmir, henum, hsize, hnodup, hne⟩
    · rename_i hnot
      simp only [Option.some_inj, Prod.mk.injEq] at h
      obtain ⟨h1, h2⟩ := h
      subst h1
      refine ⟨?_, ?_, ?_, ?_, ?_⟩
      · show s.idx_to_word ++ [(s.size, w)] =
          (s.word_to_idx ++ [(w, s.size)]).map (fun p => (p.2, p.1))
        simp [hmir]
      · show (s.word_to_idx ++ [(w, s.size)]).map Prod.snd =
          List.range (s.word_to_idx ++ [(w, s.size)]).length
        simp [henum, hsize, List.range_succ]
      · show s.size + 1 = (s.word_to_idx ++ [(w, s.size)]).length
        simp [hsize]
      · show ((s.word_to_idx ++ [(w, s.size)]).map Prod.fst).Nodup
        simp only [List.map_append, List.map_cons, List.map_nil]
        rw [List.nodup_append]
        refine ⟨hnodup, List.nodup_singleton _, ?_⟩
        intro a ha hb
        simp only [List.mem_singleton] at hb
        subst hb
        have hsome := dictFind_isSome_of_mem_keys ha
        rw [hnot] at hsome
        simp at hsome
      · show ∀ p ∈ s.word_to_idx ++ [(w, s.size)], p.1 ≠ []
        intro p hp
        rcases List.mem_append.mp hp with hp | hp
        · exact hne p hp
        · simp only [List.mem_singleton] at hp
          subst hp
          exact hw

theorem internComponents_cons_none {s : NCStore} {w₀ : Str} (ws : List Str)
    (h : s.get_index w₀ = none) : internComponents s (w₀ :: ws) = (s, none) := by
  simp [internComponents, h]

theorem internComponents_cons_some {s s₁ : NCStore} {w₀ : Str} {i₀ : Nat} (ws : List Str)
    (h : s.get_index w₀ = some (s₁, i₀)) :
    internComponents s (w₀ :: ws) =
      ((internComponents s₁ ws).1,
        match (internComponents s₁ ws).2 with
        | none => none
        | some is => some (i₀ :: is)) := by
  simp only [internComponents, h]
  cases internComponents s₁ ws with
  | mk s₂ r => cases r <;> rfl

/-- Interning a component list never removes or shadows word entries. -/
theorem internComponents_fst_mono_word (ws : List Str) :
    ∀ (s : NCStore) {w : Str} {i : Nat},
    dictFind s.word_to_idx w = some i →
    dictFind ((internComponents s ws).1).word_to_idx w = some i := by
  induction ws with
  | nil =>
    intro s w i hf
    simpa [internComponents] using hf
  | cons w₀ ws ih =>
    intro s w i hf
    cases hgi : s.get_index w₀ with
    | none =>
      rw [internComponents_cons_none ws hgi]
      exact hf
    | some p =>
      obtain ⟨s₁, i₀⟩ := p
      rw [internComponents_cons_some ws hgi]
      exact ih s₁ (NCStore.get_index_mono_word hgi hf)

/-- Interning a component list never removes or shadows id entries. -/
theorem internComponents_fst_mono_idx (ws : List Str) :
    ∀ (s : NCStore) {j : Nat} {w : Str},
    dictFind s.idx_to_word j = some w →
    dictFind ((internComponents s ws).1).idx_to_word j = some w := by
  induction ws with
  | nil =>
    intro s j w hf
    simpa [internComponents] using hf
  | cons w₀ ws ih =>
    intro s j w hf
    cases hgi : s.get_index w₀ with
    | none =>
      rw [internComponents_cons_none ws hgi]
      exact hf
    | some p =>
      obtain ⟨s₁, i₀⟩ := p
      rw [internComponents_cons_some ws hgi]
      exact ih s₁ (NCStore.get_index_mono_idx hgi hf)

/-- Interning preserves the store invariants. -/
theorem internComponents_fst_WF (ws : List Str) :
    ∀ (s : NCStore), s.WF → ((internComponents s ws).1).WF := by
  induction ws with
  | nil =>
    intro s hwf
    simpa [internComponents] using hwf
  | cons w₀ ws ih =>
    intro s hwf
    cases hgi : s.get_index w₀ with
    | none =>
      rw [internComponents_cons_none ws hgi]
      exact hwf
    | some p =>
      obtain ⟨s₁, i₀⟩ := p
      rw [internComponents_cons_some ws hgi]
      exact ih s₁ (NCStore.get_index_WF hwf hgi)

/-- Successful interning registers every component at its id, in order,
in the final store. -/
theorem internComponents_spec (ws : List Str) :
    ∀ (s : NCStore) {s' : NCStore} {is : List Nat}, s.WF →
    internComponents s ws = (s', some is) →
    List.Forall₂ (fun (w : Str) (i : Nat) =>
      dictFind s'.word_to_idx w = some i ∧ dictFind s'.idx_to_word i = some w) ws is := by
  induction ws with
  | nil =>
    intro s s' is hwf h
    simp only [internComponents, Prod.mk.injEq, Option.some_inj] at h
    obtain ⟨h1, h2⟩ := h
    subst h1
    subst h2
    exact List.Forall₂.nil
  | cons w₀ ws ih =>
    intro s s' is hwf h
    cases hgi : s.get_index w₀ with
    | none =>
      rw [internComponents_cons_none ws hgi] at h
      exact absurd h (by simp)
    | some p =>
      obtain ⟨s₁, i₀⟩ := p
      rw [internComponents_cons_some ws hgi] at h
      revert h
      cases hc : internComponents s₁ ws with
      | mk s₂ r =>
        intro h
        cases r with
        | none => exact absurd h (by simp)
        | some tl =>
          simp only [Prod.mk.injEq, Option.some_inj] at h
          obtain ⟨h1, h2⟩ := h
          subst h1
          subst h2
          have hwf₁ := NCStore.get_index_WF hwf hgi
          have htl := ih s₁ hwf₁ hc
          have hspec := NCStore.get_index_spec hwf hgi
          have hw : dictFind s₂.word_to_idx w₀ = some i₀ := by
            have hm := internComponents_fst_mono_word ws s₁ hspec.1
            rw [hc] at hm
            exact hm
          have hi : dictFind s₂.idx_to_word i₀ = some w₀ := by
            have hm := internComponents_fst_mono_idx ws s₁ hspec.2
            rw [hc] at hm
            exact hm
          exact List.Forall₂.cons ⟨hw, hi⟩ htl

/-- Interning components that are all already registered is a no-op
returning the registered ids. -/
theorem internComponents_found (ws : List Str) :
    ∀ (s : NCStore) {is : List Nat},
    List.Forall₂ (fun (w : Str) (i : Nat) => dictFind s.word_to_idx w = some i) ws is →
    (∀ w ∈ ws, w ≠ []) →
    internComponents s ws = (s, some is) := by
  induction ws with
  | nil =>
    intro s is h hne
    cases h
    rfl
  | cons w₀ ws ih =>
    intro s is h hne
    cases h with
    | cons hh ht =>
      have hg := NCStore.get_index_found (hne w₀ (by simp)) hh
      simp only [internComponents, hg, ih s ht (fun w hw => hne w (by simp [hw]))]

/-- Re-running a successful interning from its own result store changes
nothing and returns the same ids (interning is idempotent). -/
theorem internComponents_idem {ws : List Str} {s s' : NCStore} {is : List Nat}
    (hwf : s.WF) (h : internComponents s ws = (s', some is)) :
    internComponents s' ws = (s', some is) := by
  have hspec := internComponents_spec ws s hwf h
  have hwf' : s'.WF := by
    have := internComponents_fst_WF ws s hwf
    rw [h] at this
    exact this
  apply internComponents_found
  · exact List.Forall₂.imp (fun w i hwi => hwi.1) hspec
  · intro w hw
    rcases List.forall₂_iff_get.mp hspec with ⟨hlen, hget⟩
    rcases List.mem_iff_get.mp hw with ⟨k, hk⟩
    have hkl : (k : Nat) < is.length := by omega
    have hfind := (hget k k.2 hkl).1
    rw [hk] at hfind
    have hmem := mem_of_dictFind hfind
    exact hwf'.2.2.2.2 _ hmem

/-- The `mapOption` succeeds pointwise on a `Forall₂` relation. -/
theorem mapOption_eq_some_of_forall₂ {α β : Type} {f : α → Option β} :
    ∀ {l : List α} {l' : List β},
    List.Forall₂ (fun a b => f a = some b) l l' → mapOption f l = some l' := by
  intro l l' h
  induction h with
  | nil => rfl
  | cons hh ht ih => simp [mapOption, hh, ih]

/-- Reduced form of `_get_name_components`. -/
theorem getNameComponents_eq (s : NCStore) (path : Str) :
    getNameComponents s path =
      ((internComponents s (pySplit '/' (path.drop 1))).1,
        match (internComponents s (pySplit '/' (path.drop 1))).2 with
        | none => none
        | some is => some (pyJoin '/' (is.map natRepr))) := by
  simp only [getNameComponents]
  cases internComponents s (pySplit '/' (path.drop 1)) with
  | mk s₂ r => cases r <;> rfl

/-- The `get_index` only fails on the empty word. -/
theorem NCStore.get_index_isSome {s : NCStore} {w : Str} (hw : w ≠ []) :
    ∃ s₁ i, s.get_index w = some (s₁, i) := by
  simp only [NCStore.get_index, if_neg hw]
  cases dictFind s.word_to_idx w with
  | none => exact ⟨_, _, rfl⟩
  | some i => exact ⟨_, _, rfl⟩

/-- Interning succeeds whenever every component is non-empty. -/
theorem internComponents_isSome (ws : List Str) :
    ∀ (s : NCStore), (∀ w ∈ ws, w ≠ []) →
    ∃ s' is, internComponents s ws = (s', some is) := by
  induction ws with
  | nil => exact fun s _ => ⟨s, [], rfl⟩
  | cons w₀ ws ih =>
    intro s hne
    obtain ⟨s₁, i₀, hgi⟩ := @NCStore.get_index_isSome s w₀ (hne w₀ (by simp))
    obtain ⟨s', is, hrec⟩ := ih s₁ (fun w hw => hne w (by simp [hw]))
    refine ⟨s', i₀ :: is, ?_⟩
    rw [internComponents_cons_some ws hgi, hrec]

/-- No packed path contains a space: it is decimal digits and slashes. -/
theorem packed_no_space {is : List Nat} : ' ' ∉ pyJoin '/' (is.map natRepr) := by
  intro h
  rcases mem_pyJoin h with h | ⟨p, hp, hcp⟩
  · exact absurd h (by decide)
  · rcases List.mem_map.mp hp with ⟨n, _, hn⟩
    exact natRepr_not_space (hn ▸ hcp)

/-- The central pack/unpack inverse: after a successful
`_get_name_components`, `_restore_name` on the same (mutated) store
reconstructs the original absolute path byte for byte. -/
theorem restore_after_pack {s s' : NCStore} {rest packed : Str}
    (hwf : s.WF)
    (h : getNameComponents s ('/' :: rest) = (s', some packed)) :
    s'.restoreName packed = some ('/' :: rest) := by
  rw [getNameComponents_eq] at h
  simp only [List.drop_succ_cons, List.drop_zero] at h
  revert h
  cases hc : internComponents s (pySplit '/' rest) with
  | mk s₁ r =>
    intro h
    cases r with
    | none => exact absurd h (by simp)
    | some is =>
      simp only [Prod.mk.injEq, Option.some_inj] at h
      obtain ⟨h1, h2⟩ := h
      subst h1
      subst h2
      have hspec := internComponents_spec _ s hwf hc
      have hlen := List.Forall₂.length_eq hspec
      have his_ne : is ≠ [] := by
        intro he
        subst he
        exact pySplit_ne_nil '/' rest (List.length_eq_zero.mp hlen)
      -- the packed string splits back into the decimal components
      have hsplit : pySplit '/' (pyJoin '/' (is.map natRepr)) = is.map natRepr :=
        pySplit_pyJoin (by simpa using his_ne)
          (fun p hp => by
            rcases List.mem_map.mp hp with ⟨n, _, hn⟩
            exact hn ▸ natRepr_not_slash)
      -- each decimal component parses back to its id
      have hparse : mapOption parseNat (is.map natRepr) = some is :=
        mapOption_eq_some_of_forall₂ (by
          rw [List.forall₂_map_left_iff]
          exact List.forall₂_same.mpr (fun a _ => parseNat_natRepr a))
      -- each id looks up to its component
      have hlook : mapOption s₁.getWord is = some (pySplit '/' rest) := by
        apply mapOption_eq_some_of_forall₂
        exact List.Forall₂.flip (List.Forall₂.imp (fun w i hwi => hwi.2) hspec)
      simp only [NCStore.restoreName, hsplit, hparse, hlook, Option.some_inj]
      rw [pyJoin_pySplit]
/-! ### Persistence round trip (`save` / `load`) -/

/-- Rebuilding the id-to-word dict from a mapping with distinct ids is the
entrywise swap, in order. -/
theorem foldl_dictInsert_swap :
    ∀ (wl : List (Str × Nat)) (acc : List (Nat × Str)),
    (∀ p ∈ wl, p.2 ∉ acc.map Prod.fst) → (wl.map Prod.snd).Nodup →
    wl.foldl (fun acc p => dictInsert acc p.2 p.1) acc =
      acc ++ wl.map (fun p => (p.2, p.1)) := by
  intro wl
  induction wl with
  | nil => intro acc _ _; simp
  | cons p t ih =>
    intro acc hfresh hnodup
    simp only [List.map_cons, List.nodup_cons] at hnodup
    simp only [List.foldl_cons]
    rw [dictInsert_of_not_mem p.1 (hfresh p (by simp))]
    rw [ih (acc ++ [(p.2, p.1)]) ?_ hnodup.2]
    · simp
    · intro q hq
      simp only [List.map_append, List.map_cons, List.map_nil, List.mem_append,
        List.mem_singleton, not_or]
      refine ⟨hfresh q (by simp [hq]), ?_⟩
      intro he
      exact hnodup.1 (he ▸ List.mem_map.mpr ⟨q, hq, rfl⟩)

/-- The `load(persist(s)) == s` for any store satisfying the invariants. -/
theorem load_save {s : NCStore} (hwf : s.WF) :
    NCStore.empty.load (.parsed s.save) = s := by
  obtain ⟨hmir, henum, hsize, hnodup, hne⟩ := hwf
  have hsnodup : (s.word_to_idx.map Prod.snd).Nodup := by
    rw [henum]
    exact List.nodup_range _
  have hfold := foldl_dictInsert_swap s.word_to_idx [] (by simp) hsnodup
  simp only [NCStore.load, NCStore.save, loadIdx2word, hfold, List.nil_append]
  cases s with
  | mk i2w w2i sz =>
    simp only at hmir henum hsize ⊢
    rw [← hmir, hsize, NCStore.mk.injEq]
    refine ⟨rfl, rfl, ?_⟩
    rw [hmir]
    simp

/-! ### Hashing (fsi.py lines 14-36)

The digest primitive itself (SHA-1, reached through `hashlib` in
`sha1_internal` and through the `sha1sum` binary in `sha1_external`) lives
outside the repository; both call sites are modelled against one abstract
digest function `H` over the file's byte content. What the repository
contributes — and what is verified — is the chunked accumulation on the
internal path and the output tokenization on the external path. -/

/-- The chunks delivered by `iter(functools.partial(_file.read, chunksize), b'')`
with `chunksize = 2**15`. Fuel (any bound on the byte count) keeps the
recursion structural so it reduces in the kernel. -/
def readChunksAux : Nat → List Nat → List (List Nat)
  | 0, _ => []
  | _ + 1, [] => []
  | fuel + 1, b :: bs =>
    List.take 32768 (b :: bs) :: readChunksAux fuel (List.drop 32768 (b :: bs))

/-- All chunks of a file's bytes, in read order. -/
def readChunks (content : List Nat) : List (List Nat) :=
  readChunksAux content.length content

/-- The `sha1_internal(filename)` (fsi.py lines 21-29): feed the chunks into
the incremental hash state (which accumulates exactly their
concatenation) and take the digest. -/
def sha1_internal (H : List Nat → Str) (content : List Nat) : Str :=
  H ((readChunks content).foldl (fun acc chunk => acc ++ chunk) [])

/-- The `sha1_external(filename)` (fsi.py lines 14-18): `sha1sum` prints
`<digest>  <filename>\n`; the code takes `output.split(' ')[0]`. -/
def sha1_external (H : List Nat → Str) (content : List Nat) (filename : Str) : Str :=
  (pySplit ' ' (H content ++ ' ' :: ' ' :: (filename ++ ['\n']))).headD []

/-- The `fast_sha1(filename, size)` (fsi.py lines 32-36): strategy selection
by size with threshold 50000. -/
def fast_sha1 (H : List Nat → Str) (content : List Nat) (filename : Str)
    (size : Nat) : Str :=
  if size < 50000 then sha1_internal H content else sha1_external H content filename

theorem readChunksAux_flatten :
    ∀ (fuel : Nat) (content : List Nat), content.length ≤ fuel →
    (readChunksAux fuel content).flatten = content := by
  intro fuel
  induction fuel with
  | zero =>
    intro content h
    have : content = [] := List.length_eq_zero.mp (Nat.le_zero.mp h)
    subst this
    rfl
  | succ fuel ih =>
    intro content h
    cases content with
    | nil => rfl
    | cons b bs =>
      simp only [readChunksAux, List.flatten_cons]
      rw [ih (List.drop 32768 (b :: bs)) ?_]
      · exact List.take_append_drop _ _
      · simp only [List.length_drop, List.length_cons]
        simp only [List.length_cons] at h
        omega

theorem foldl_append_eq_flatten {α : Type} :
    ∀ (l : List (List α)) (acc : List α),
    l.foldl (fun acc chunk => acc ++ chunk) acc = acc ++ l.flatten := by
  intro l
  induction l with
  | nil => simp
  | cons c t ih =>
    intro acc
    simp only [List.foldl_cons, List.flatten_cons, ih]
    simp

/-- The internal chunked path digests exactly the file's bytes. -/
theorem sha1_internal_eq (H : List Nat → Str) (content : List Nat) :
    sha1_internal H content = H content := by
  simp only [sha1_internal, foldl_append_eq_flatten, List.nil_append, readChunks,
    readChunksAux_flatten content.length content (Nat.le_refl _)]

/-- The external path extracts exactly the digest token, provided the
digest contains no space (true of any hex digest). -/
theorem sha1_external_eq (H : List Nat → Str) (content : List Nat)
    (filename : Str) (hsp : ' ' ∉ H content) :
    sha1_external H content filename = H content := by
  simp only [sha1_external, pySplit_append_cons _ hsp, List.headD_cons]

/-! ### fs_tidyfy.py: `FileInfo`, `FileY`, `FsDb` -/

/-- The `FileInfo` (fs_tidyfy.py lines 20-24): a file name and its directory.
`get_hash` reads the file at `os.path.join(path, name)`; a hashing run is
modelled by an abstract digest assignment `H : FileInfo → Str` (one fixed
filesystem snapshot). -/
structure FileInfo where
  name : Str
  path : Str
deriving DecidableEq, Repr

/-- The `FileY` (fs_tidyfy.py lines 40-75). The original emulates a state
machine with an integer `state` field and one polymorphic `files` slot;
the reachable shapes are exactly:
* `single fi`    — `state == 0`, `file_info = fi`, `files = None`;
* `multi gs`     — `state == 1`, `files` a dict hash → `FileY`;
* `groupOne fi`  — `state == 2`, a one-member hash group;
* `groupMany fs` — `state == 3`, a grown hash group (member list). -/
inductive FileY where
  | single (file_info : FileInfo)
  | multi (files : List (Str × FileY))
  | groupOne (file_info : FileInfo)
  | groupMany (files : List FileInfo)
deriving Repr

mutual

/-- Termination measure for `FileY.add`: promotion strictly decreases it. -/
def FileY.rank : FileY → Nat
  | .single _ => 2
  | .multi files => 1 + rankEntries files
  | .groupOne _ => 0
  | .groupMany _ => 0

def rankEntries : List (Str × FileY) → Nat
  | [] => 0
  | (_, g) :: t => g.rank + rankEntries t

end

theorem rank_of_dictFind :
    ∀ {files : List (Str × FileY)} {h : Str} {g : FileY},
    dictFind files h = some g → g.rank ≤ rankEntries files := by
  intro files
  induction files with
  | nil => intro h g hf; simp [dictFind] at hf
  | cons e t ih =>
    intro h g hf
    obtain ⟨k, v⟩ := e
    simp only [dictFind] at hf
    split at hf
    · simp only [Option.some_inj] at hf
      subst hf
      simp only [rankEntries]
      omega
    · have := ih hf
      simp only [rankEntries]
      omega

/-- The `FileY.add` (fs_tidyfy.py lines 48-75), with an explicit log (third
component) of the `FileInfo`s whose `get_hash` was invoked, in call
order. The second component is the returned collision code. -/
def FileY.add (H : FileInfo → Str) : FileY → FileInfo → FileY × Nat × List FileInfo
  | .single fi, new =>
    -- state 0: hash the stored file, promote to a one-group dict, re-add
    match FileY.add H (.multi [(H fi, .groupOne fi)]) new with
    | (y, code, log) => (y, code, fi :: log)
  | .multi files, new =>
    -- state 1: hash the new file, then extend or enter its group
    match hfind : dictFind files (H new) with
    | none => (.multi (dictInsert files (H new) (.groupOne new)), 2, [new])
    | some g =>
      match FileY.add H g new with
      | (g', _, log) => (.multi (dictInsert files (H new) g'), 2, new :: log)
  | .groupOne fi, new => (.groupMany [fi, new], 3, [])
  | .groupMany fis, new => (.groupMany (fis ++ [new]), 3, [])
termination_by y _ => y.rank
decreasing_by
  · simp [FileY.rank, rankEntries]
  · exact Nat.lt_of_le_of_lt (rank_of_dictFind hfind) (by simp [FileY.rank])

/-- The per-file body of `FsDb.register` (fs_tidyfy.py lines 100-109):
a fresh size keys a new `single` entry — no hashing — while a taken size
delegates to `FileY.add`. Second component: the hash-call log. -/
def registerFile (H : FileInfo → Str) (files : List (Nat × FileY))
    (fi : FileInfo) (size : Nat) : List (Nat × FileY) × List FileInfo :=
  match dictFind files size with
  | none => (dictInsert files size (.single fi), [])
  | some y =>
    match FileY.add H y fi with
    | (y', _, log) => (dictInsert files size y', log)

/-! ### fsi.py: the indexer state and `_add_file`

The persisted layout under `~/.fsi/files` nests one directory per decimal
digit of the size (`'/'.join('%d' % size)`), so distinct sizes own
distinct full paths; the embedding tracks existence of a size's full
directory and the contents of its `dirinfo` file, keyed directly by the
size. The name store file and the digit nesting of intermediate
directories carry no further information used by `_add_file`. -/

/-- One candidate file as the traversal hands it to `_add_file`: its
absolute path, the stat results, and the outcome hashing it would have
(`none` = the read fails, e.g. permission denied). The digest is the same
whichever of the two hash implementations the size selects (fsi.py line
163 uses threshold 60000), so it is carried as one value. -/
structure FileDesc where
  path : Str
  size : Nat
  mtime : Nat
  statOk : Bool
  hashResult : Option Str
deriving DecidableEq, Repr

/-- The exceptions `_add_file` can raise. -/
inductive FsiError where
  /-- The `os.path.getsize` / `os.path.getmtime` raised -/
  | statError
  /-- The `assert word != ''` in `get_index` (empty path component) -/
  | packAssert
  /-- The `assert (self._restore_name(_packed_name) == filename)` failed -/
  | restoreAssert
  /-- The `IOError` while computing the checksum -/
  | hashError
  /-- The `assert False` at the end of `_promote_to_multi` (unimplemented) -/
  | promoteTodo
  /-- failure restoring a packed name inside `_promote_to_multi` -/
  | promoteRestore
  /-- The `_state[1]` raised `IndexError` -/
  | dirinfoIndex
  /-- The `assert False` on a `multi` or unrecognized dirinfo tag -/
  | stateAssert
deriving DecidableEq, Repr

/-- The indexer's mutable state: the in-memory name component store and
the persisted bucket area (`files/<size digits>/` directories and their
`dirinfo` files). -/
structure FsiState where
  store : NCStore
  sizeDirs : List Nat
  dirinfo : List (Nat × Str)
deriving DecidableEq, Repr

/-- A fresh indexer over an empty persisted area. -/
def FsiState.empty : FsiState := ⟨NCStore.empty, [], []⟩

/-- The `_get_size_path(size)` (fsi.py lines 123-143): `os.makedirs` creates
the size directory (a persisted write) and yields state `None`; if it
already exists, the `dirinfo` file is read and split on spaces, a missing
`dirinfo` also yielding `None`. -/
def getSizePath (fs : FsiState) (size : Nat) : FsiState × Option (List Str) :=
  if size ∈ fs.sizeDirs then
    match dictFind fs.dirinfo size with
    | some content => (fs, some (pySplit ' ' content))
    | none => (fs, none)
  else
    ({ fs with sizeDirs := fs.sizeDirs ++ [size] }, none)

/-- The `_store_single_file(size_path, name)` (fsi.py lines 117-121): write
`"single " + name` into the bucket's `dirinfo`. -/
def storeSingleFile (fs : FsiState) (size : Nat) (name : Str) : FsiState :=
  { fs with dirinfo := dictInsert fs.dirinfo size ("single ".data ++ name) }

/-- The `_add_file(filename)` (fsi.py lines 146-204), in source order:
stat → `_get_size_path` (creates the size directory) → path packing
(mutates the store) → restore assertion → hashing → bucket dispatch.
Result: the state at return or raise, the outcome, and the log of file
paths whose content was hashed (in call order). -/
def addFile (fs : FsiState) (f : FileDesc) : FsiState × Except FsiError Nat × List Str :=
  if ¬ f.statOk then (fs, .error .statError, [])
  else
    match getSizePath fs f.size with
    | (fs₁, state) =>
      match getNameComponents fs₁.store f.path with
      | (st, none) => ({ fs₁ with store := st }, .error .packAssert, [])
      | (st, some packed) =>
        if st.restoreName packed ≠ some f.path then
          ({ fs₁ with store := st }, .error .restoreAssert, [])
        else
          match f.hashResult with
          | none => ({ fs₁ with store := st }, .error .hashError, [f.path])
          | some _ =>
            -- `=== red exception safety line` (fsi.py lines 180-182)
            match state with
            | none =>
              (storeSingleFile { fs₁ with store := st } f.size packed,
                .ok f.size, [f.path])
            | some di =>
              if di.headD [] = "single".data then
                match di[1]? with
                | none => ({ fs₁ with store := st }, .error .dirinfoIndex, [f.path])
                | some p =>
                  if packed ≠ p then
                    -- `_promote_to_multi` (fsi.py lines 206-217): restore
                    -- both names, hash both files, then `assert False`
                    match st.restoreName p, st.restoreName packed with
                    | some otherName, some newName =>
                      ({ fs₁ with store := st }, .error .promoteTodo,
                        [f.path, otherName, newName])
                    | _, _ =>
                      ({ fs₁ with store := st }, .error .promoteRestore, [f.path])
                  else
                    -- `found myself`: idempotent re-scan, no-op
                    ({ fs₁ with store := st }, .ok f.size, [f.path])
              else
                ({ fs₁ with store := st }, .error .stateAssert, [f.path])

/-! ### Walking `_add_file` for the idempotence claim -/

/-- First observation of a fresh size: `_add_file` creates the size
directory, packs the path, hashes, and commits a `single` dirinfo. -/
theorem addFile_fresh_run {fs : FsiState} {f : FileDesc} {rest : Str}
    {s₁ : NCStore} {is : List Nat}
    (hwf : fs.store.WF)
    (hstat : f.statOk = true)
    (hpath : f.path = '/' :: rest)
    (hfresh : f.size ∉ fs.sizeDirs)
    (hpack : internComponents fs.store (pySplit '/' rest) = (s₁, some is))
    (hd : ∃ d, f.hashResult = some d) :
    addFile fs f =
      (⟨s₁, fs.sizeDirs ++ [f.size],
        dictInsert fs.dirinfo f.size
          ("single ".data ++ pyJoin '/' (is.map natRepr))⟩,
        .ok f.size, [f.path]) := by
  obtain ⟨d, hdr⟩ := hd
  have hgsp : getSizePath fs f.size =
      ({ fs with sizeDirs := fs.sizeDirs ++ [f.size] }, none) := by
    simp [getSizePath, hfresh]
  have hgnc : getNameComponents fs.store f.path =
      (s₁, some (pyJoin '/' (is.map natRepr))) := by
    rw [getNameComponents_eq, hpath]
    simp only [List.drop_succ_cons, List.drop_zero, hpack]
  have hgnc' : getNameComponents fs.store ('/' :: rest) =
      (s₁, some (pyJoin '/' (is.map natRepr))) := by
    rw [← hpath]
    exact hgnc
  have hres : s₁.restoreName (pyJoin '/' (is.map natRepr)) = some f.path := by
    rw [hpath]
    exact restore_after_pack hwf hgnc'
  simp only [addFile, hstat, hgsp, hgnc, hres, hdr, storeSingleFile]
  simp

/-- A size bucket already in state `Single` with the file's own packed
name: `_add_file` re-hashes, hits `found myself`, and changes nothing. -/
theorem addFile_single_selfmatch {fs : FsiState} {f : FileDesc} {packed : Str}
    (hstat : f.statOk = true)
    (hmem : f.size ∈ fs.sizeDirs)
    (hdi : dictFind fs.dirinfo f.size = some ("single ".data ++ packed))
    (hnosp : ' ' ∉ packed)
    (hgnc : getNameComponents fs.store f.path = (fs.store, some packed))
    (hres : fs.store.restoreName packed = some f.path)
    (hd : ∃ d, f.hashResult = some d) :
    addFile fs f = (fs, .ok f.size, [f.path]) := by
  obtain ⟨d, hdr⟩ := hd
  have hsplit : pySplit ' ' ("single ".data ++ packed) =
      ["single".data, packed] := by
    have hform : ("single ".data ++ packed : Str) =
        "single".data ++ ' ' :: packed := rfl
    rw [hform, pySplit_append_cons _ (by decide), pySplit_no_sep hnosp]
  have hgsp : getSizePath fs f.size = (fs, some ["single".data, packed]) := by
    simp only [getSizePath, if_pos hmem, hdi, hsplit]
  simp only [addFile, hstat, hgsp, hgnc, hres, hdr]
  simp

/-! ## Claim theorems -/

/-- Claim C4, counterexample: `load` on a malformed persisted location
does NOT fail with `CorruptStore` — the bare `except:` swallows the parse
error and `load` returns normally, leaving the (fresh) store empty. -/
theorem claim_C4_counterexample :
    NCStore.empty.load .malformed = NCStore.empty := rfl

/-- Claim C4 (amended): `load` on a missing persisted location succeeds
and yields an empty store when the store was fresh; `load` on a malformed
(unparseable) location also returns normally — it does not fail — leaving
the store unchanged. -/
theorem claim_C4_load_missing_and_malformed :
    NCStore.empty.load .missing = NCStore.empty ∧
    ∀ s : NCStore, s.load .malformed = s :=
  ⟨rfl, fun _ => rfl⟩

/-- Claim C10: whenever `name_component_store.load` fails to read or
parse the persisted file — missing file or malformed contents — it
returns normally and leaves both direction mappings and the size counter
(the whole store) unchanged. -/
theorem claim_C10_load_failure_no_mutation (s : NCStore) (input : LoadInput)
    (h : input = .missing ∨ input = .malformed) : s.load input = s := by
  rcases h with h | h <;> subst h <;> rfl

/-- Witness for C10 at a populated store and a malformed file. -/
theorem claim_C10_witness :
    (LoadInput.malformed = LoadInput.missing ∨
      LoadInput.malformed = LoadInput.malformed) ∧
    NCStore.load ⟨[(0, ['a'])], [(['a'], 0)], 1⟩ .malformed =
      ⟨[(0, ['a'])], [(['a'], 0)], 1⟩ :=
  ⟨Or.inr rfl, claim_C10_load_failure_no_mutation _ _ (Or.inr rfl)⟩

/-- Claim C5: for every absolute path packed through a store instance,
unpacking the resulting packed path through the same (post-pack) store
reconstructs the path byte-identically: `unpack(pack(p)) == p`. -/
theorem claim_C5_pack_unpack (s s' : NCStore) (p rest packed : Str)
    (hwf : s.WF) (hp : p = '/' :: rest)
    (hpack : getNameComponents s p = (s', some packed)) :
    s'.restoreName packed = some p := by
  subst hp
  exact restore_after_pack hwf hpack

/-- Witness for C5: packing `/a/b` through a fresh store and unpacking. -/
theorem claim_C5_witness :
    NCStore.restoreName
      ⟨[(0, ['a']), (1, ['b'])], [(['a'], 0), (['b'], 1)], 2⟩
      "0/1".data = some ['/', 'a', '/', 'b'] :=
  claim_C5_pack_unpack NCStore.empty
    ⟨[(0, ['a']), (1, ['b'])], [(['a'], 0), (['b'], 1)], 2⟩
    ['/', 'a', '/', 'b'] ['a', '/', 'b'] "0/1".data
    NCStore.WF_empty rfl (by rfl)

/-- Claim C6: for every store reachable by interning (`WF`), loading what
`save` persisted into a fresh store yields an equal store
(`load(persist(s)) == s`), and the load-after-save self-check performed
once per process lifetime in `indexer.__exit__` passes. -/
theorem claim_C6_save_load_roundtrip (s : NCStore) (hwf : s.WF) :
    NCStore.empty.load (.parsed s.save) = s ∧ s.exitCheck = true := by
  refine ⟨load_save hwf, ?_⟩
  simp [NCStore.exitCheck, load_save hwf]

/-- Witness for C6 at a populated store. -/
theorem claim_C6_witness :
    NCStore.empty.load (.parsed (NCStore.save ⟨[(0, ['a'])], [(['a'], 0)], 1⟩)) =
      ⟨[(0, ['a'])], [(['a'], 0)], 1⟩ ∧
    NCStore.exitCheck ⟨[(0, ['a'])], [(['a'], 0)], 1⟩ = true :=
  claim_C6_save_load_roundtrip ⟨[(0, ['a'])], [(['a'], 0)], 1⟩
    (by unfold NCStore.WF; decide)

/-- Claim C7, counterexample: packing is NOT non-failing for every
non-empty path string — on the non-empty path `"/"` the split yields one
empty component and `get_index`'s `assert word != ''` fires. -/
theorem claim_C7_counterexample :
    (['/'] : Str) ≠ [] ∧ (getNameComponents NCStore.empty ['/']).2 = none :=
  ⟨by decide, rfl⟩

/-- Claim C7 (amended): packing a path via the Name Component Store is a
pure state-transforming function, and it is non-failing for every path
all of whose components (the segments of the path after its first
character) are non-empty; it fails on paths with an empty component,
such as the bare root `"/"`. -/
theorem claim_C7_pack_nonfailing (s : NCStore) (p : Str)
    (hseg : ∀ seg ∈ pySplit '/' (p.drop 1), seg ≠ []) :
    ∃ s' packed, getNameComponents s p = (s', some packed) := by
  obtain ⟨s', is, h⟩ := internComponents_isSome _ s hseg
  refine ⟨s', pyJoin '/' (is.map natRepr), ?_⟩
  rw [getNameComponents_eq, h]

/-- Witness for C7 on `/a/b` against a fresh store. -/
theorem claim_C7_witness :
    ∃ s' packed,
      getNameComponents NCStore.empty ['/', 'a', '/', 'b'] = (s', some packed) :=
  claim_C7_pack_nonfailing NCStore.empty ['/', 'a', '/', 'b'] (by decide)

/-- Claim C9: the internal chunked-streaming hasher and the
external-process hasher produce an identical digest for identical byte
content — both equal the digest of the file's bytes — and therefore
`fast_sha1` returns that digest on either side of its size threshold.
`H` is the shared digest primitive (SHA-1), whose hex output contains no
space. -/
theorem claim_C9_hash_equivalence (H : List Nat → Str) (content : List Nat)
    (filename : Str) (size : Nat) (hsp : ' ' ∉ H content) :
    sha1_internal H content = H content ∧
    sha1_external H content filename = H content ∧
    fast_sha1 H content filename size = H content := by
  refine ⟨sha1_internal_eq H content, sha1_external_eq H content filename hsp, ?_⟩
  unfold fast_sha1
  split
  · exact sha1_internal_eq H content
  · exact sha1_external_eq H content filename hsp

/-- Witness for C9 at concrete bytes, filename and both threshold sides
(60000 picks the external hasher; the equalities still agree). -/
theorem claim_C9_witness :
    sha1_internal (fun _ => ['d']) [1, 2, 3] = ['d'] ∧
    sha1_external (fun _ => ['d']) [1, 2, 3] ['f'] = ['d'] ∧
    fast_sha1 (fun _ => ['d']) [1, 2, 3] ['f'] 60000 = ['d'] :=
  claim_C9_hash_equivalence (fun _ => ['d']) [1, 2, 3] ['f'] 60000 (by decide)

/-- Claim C1: a size bucket holding a single record `r`, observing a
second file with a different path, is promoted to Multi; both files are
hashed at that moment (the hash-call log is exactly `[r, new]`), and if
the two digests agree both records end up in one duplicate group of size
two, while if they differ each record becomes its own singleton group
keyed by its hash. This is `FileY.add` (fs_tidyfy.py), the implemented
promotion; fsi's `_promote_to_multi` computes the same two hashes and
then stops at its unimplemented-promotion marker. -/
theorem claim_C1_promotion (H : FileInfo → Str) (r new : FileInfo)
    (hpath : r ≠ new) :
    (H r = H new →
      FileY.add H (.single r) new =
        (.multi [(H new, .groupMany [r, new])], 2, [r, new])) ∧
    (H r ≠ H new →
      FileY.add H (.single r) new =
        (.multi [(H r, .groupOne r), (H new, .groupOne new)], 2, [r, new])) := by
  constructor
  · intro hEq
    simp only [FileY.add]
    rw [hEq]
    simp only [dictFind, dictInsert]
    split
    · rename_i hfind
      simp at hfind
    · rename_i g hfind
      rw [if_pos rfl] at hfind
      simp only [Option.some_inj] at hfind
      subst hfind
      simp [FileY.add]
  · intro hne
    simp only [FileY.add]
    simp only [dictFind, dictInsert]
    split
    · rename_i hfind
      simp [if_neg (fun h : H r = H new => hne h)]
    · rename_i g hfind
      rw [if_neg (fun h : H r = H new => hne h)] at hfind
      simp at hfind

/-- Witness for C1: two distinct files with equal digests collapse into
one group of size two. -/
theorem claim_C1_witness :
    FileY.add (fun _ => ['h']) (.single ⟨['x'], ['a']⟩) ⟨['y'], ['a']⟩ =
      (.multi [(['h'], .groupMany [⟨['x'], ['a']⟩, ⟨['y'], ['a']⟩])], 2,
        [⟨['x'], ['a']⟩, ⟨['y'], ['a']⟩]) :=
  (claim_C1_promotion (fun _ => ['h']) ⟨['x'], ['a']⟩ ⟨['y'], ['a']⟩
    (by decide)).1 rfl

/-- Claim C3, counterexample: in `indexer._add_file` (fsi.py) a content
hash IS computed for a file whose size was never observed before — the
hashing block runs unconditionally before the bucket dispatch. Starting
from a fresh index, adding `/a` (size 7, unseen) performs the
`Empty → Single` transition (a `single` dirinfo is written) and yet the
hash-call log contains the file. -/
theorem claim_C3_counterexample :
    FsiState.empty.sizeDirs = [] ∧
    (addFile FsiState.empty ⟨"/a".data, 7, 0, true, some ['h']⟩).1.dirinfo =
      [(7, "single 0".data)] ∧
    (addFile FsiState.empty ⟨"/a".data, 7, 0, true, some ['h']⟩).2.2 =
      ["/a".data] :=
  ⟨rfl, rfl, rfl⟩

/-- Claim C3 (amended): in the `FsDb.register` implementation
(fs_tidyfy.py) a file of a previously unseen size is stored as a new
`single` bucket with no content hash computed (empty hash-call log) —
hashing happens only when a second file of the same size arrives; the
fsi indexer, by contrast, hashes every file unconditionally (see the
counterexample). -/
theorem claim_C3_register_fresh_no_hash (H : FileInfo → Str)
    (files : List (Nat × FileY)) (fi : FileInfo) (size : Nat)
    (hfresh : dictFind files size = none) :
    registerFile H files fi size = (dictInsert files size (.single fi), []) := by
  simp [registerFile, hfresh]

/-- Witness for C3 on an empty database. -/
theorem claim_C3_witness :
    registerFile (fun fi => fi.name) [] ⟨['x'], ['a']⟩ 300 =
      ([(300, FileY.single ⟨['x'], ['a']⟩)], []) := by
  rw [claim_C3_register_fresh_no_hash (fun fi => fi.name) [] ⟨['x'], ['a']⟩ 300 rfl]
  rfl

/-- Claim C2 is violated by the code (code bug): `_add_file` performs
state-changing writes BEFORE its fallible hashing, despite the in-code
"red exception safety line" comment claiming no state changes happen
above it. Adding `/a/b` (size 5, fresh index) whose content read fails:
the call raises the hash error, yet the size directory `files/5` has been
created and both path components have been interned into the in-memory
name store — the index state differs from the pre-call state. -/
theorem claim_C2_partial_mutation_on_hash_failure :
    (addFile FsiState.empty ⟨"/a/b".data, 5, 0, true, none⟩).2.1 =
      .error .hashError ∧
    (addFile FsiState.empty ⟨"/a/b".data, 5, 0, true, none⟩).1 ≠
      FsiState.empty ∧
    (addFile FsiState.empty ⟨"/a/b".data, 5, 0, true, none⟩).1.sizeDirs =
      [5] ∧
    (addFile FsiState.empty ⟨"/a/b".data, 5, 0, true, none⟩).1.store.size = 2 :=
  ⟨rfl, by decide, rfl, rfl⟩

/-- Claim C8: calling `add` twice with the same path on an unchanged
file is idempotent. After the first call registers the file (fresh size:
`Empty → Single`), the bucket's dirinfo is a `single` record, and the
second call returns the size with the ENTIRE index state unchanged — the
bucket stays `Single` (not promoted) and, state being equal, the total
number of registered files is unchanged. -/
theorem claim_C8_add_idempotent (fs : FsiState) (f : FileDesc) (rest : Str)
    (hwf : fs.store.WF)
    (hstat : f.statOk = true)
    (hpath : f.path = '/' :: rest)
    (hseg : ∀ seg ∈ pySplit '/' rest, seg ≠ [])
    (hfresh : f.size ∉ fs.sizeDirs)
    (hd : ∃ d, f.hashResult = some d) :
    (∃ name, dictFind (addFile fs f).1.dirinfo f.size =
        some ("single ".data ++ name)) ∧
    addFile (addFile fs f).1 f = ((addFile fs f).1, .ok f.size, [f.path]) := by
  obtain ⟨s₁, is, hpack⟩ := internComponents_isSome _ fs.store hseg
  have h1 := addFile_fresh_run hwf hstat hpath hfresh hpack hd
  rw [h1]
  have hgnc₁ : getNameComponents fs.store ('/' :: rest) =
      (s₁, some (pyJoin '/' (is.map natRepr))) := by
    rw [getNameComponents_eq]
    simp only [List.drop_succ_cons, List.drop_zero, hpack]
  have hres : s₁.restoreName (pyJoin '/' (is.map natRepr)) = some f.path := by
    rw [hpath]
    exact restore_after_pack hwf hgnc₁
  have hidem := internComponents_idem hwf hpack
  have hgnc₂ : getNameComponents s₁ f.path =
      (s₁, some (pyJoin '/' (is.map natRepr))) := by
    rw [getNameComponents_eq, hpath]
    simp only [List.drop_succ_cons, List.drop_zero, hidem]
  constructor
  · exact ⟨pyJoin '/' (is.map natRepr), dictFind_dictInsert_self _ _ _⟩
  · exact addFile_single_selfmatch hstat (by simp)
      (dictFind_dictInsert_self _ _ _) packed_no_space hgnc₂ hres hd

/-- Witness for C8: `/a/b` (size 5) added twice onto a fresh index. -/
theorem claim_C8_witness :
    (∃ name,
      dictFind
        (addFile FsiState.empty ⟨"/a/b".data, 5, 0, true, some ['h']⟩).1.dirinfo
        5 = some ("single ".data ++ name)) ∧
    addFile (addFile FsiState.empty ⟨"/a/b".data, 5, 0, true, some ['h']⟩).1
        ⟨"/a/b".data, 5, 0, true, some ['h']⟩ =
      ((addFile FsiState.empty ⟨"/a/b".data, 5, 0, true, some ['h']⟩).1,
        .ok 5, ["/a/b".data]) :=
  claim_C8_add_idempotent FsiState.empty ⟨"/a/b".data, 5, 0, true, some ['h']⟩
    "a/b".data NCStore.WF_empty rfl rfl (by decide) (by decide) ⟨['h'], rfl⟩



end FsTidyfy
